/-
Verification of the VSOP87 elliptic-model loader and evaluator
(soniakeys/vsop87, file vsop87.go) against its natural-language
specification.

The Go source is shallowly embedded as follows.

* float64 values are modelled as elements of a linear ordered field `K`
  (the parser is generic in `K`; the model-construction and evaluation
  layer instantiates `K := ℝ`, where `log10` and `cos` live).
* A text line of a coefficient file is modelled by `Line K`: the record of
  exactly the observations the Go code makes of a line — its length, the
  byte at index 41, the substring [22:29], the byte at index 59, and the
  results of `strconv.Atoi` on [60:67] and `strconv.ParseFloat` on
  [79:97], [98:111], [111:131] (library calls abstracted as given data).
* Go runtime panics (slice/index out of range) are the `PRes.crash`
  outcome; the Go `for` loop of `coeff.parse` is embedded with explicit
  fuel, `PRes.hang` marking fuel exhaustion (the loop has a path that
  does not advance, so it is not structurally terminating).
* File I/O is abstracted: `NewEllipticModel` receives, for each body, the
  optional list of lines of its coefficient file (`none` = read error).
-/
import Mathlib

set_option maxHeartbeats 1000000

namespace Vsop87

/-- Number of body constants (vsop87.go: `nBodies`). -/
abbrev nBodies : ℕ := 10

/-- Body constant `Sun` (vsop87.go line 14). -/
def Sun : Fin nBodies := 0

/-- Body constant `Mercury`. -/
def Mercury : Fin nBodies := 1

/-- Body constant `Venus`. -/
def Venus : Fin nBodies := 2

/-- Body constant `Earth`. -/
def Earth : Fin nBodies := 3

/-- Body constant `Mars`. -/
def Mars : Fin nBodies := 4

/-- Body constant `Jupiter`. -/
def Jupiter : Fin nBodies := 5

/-- Body constant `Saturn`. -/
def Saturn : Fin nBodies := 6

/-- Body constant `Uranus`. -/
def Uranus : Fin nBodies := 7

/-- Body constant `Neptune`. -/
def Neptune : Fin nBodies := 8

/-- Body constant `EarthMoon` (barycenter). -/
def EarthMoon : Fin nBodies := 9

/-- The 7-character body-name fields (vsop87.go: `b7`). -/
def b7 : Fin nBodies → String :=
  ![ "", "MERCURY", "VENUS  ", "EARTH  ", "MARS   ", "JUPITER", "SATURN ",
    "URANUS ", "NEPTUNE", "EMB    "]

/-- Nominal distance scales (vsop87.go: `a0`), as exact rationals, in
body order Sun, Mercury, Venus, Earth, Mars, Jupiter, Saturn, Uranus,
Neptune, EarthMoon. -/
def a0 : Fin nBodies → ℚ
  | 0 => 0
  | 1 => 3871 / 10000
  | 2 => 7233 / 10000
  | 3 => 1
  | 4 => 15237 / 10000
  | 5 => 52026 / 10000
  | 6 => 95547 / 10000
  | 7 => 192181 / 10000
  | 8 => 301096 / 10000
  | 9 => 1

/-- One trigonometric term (Go struct `abc`): amplitude `a`, phase `b`,
frequency `c`. -/
structure abc (K : Type) where
  a : K
  b : K
  c : K
deriving DecidableEq

/-- One line of a coefficient file, abstracted to the observations the Go
code makes of it: `len` is the line length; `c41` the byte `line[41]`;
`body7` the substring `line[22:29]`; `d59` the byte value `line[59]`;
`nTerms` the result of `strconv.Atoi(strings.TrimSpace(line[60:67]))`;
`fA`, `fB`, `fC` the results of `strconv.ParseFloat` on
`strings.TrimSpace(line[79:97])`, `line[98:111]`,
`strings.TrimSpace(line[111:131])` (`none` = the library call fails).
The string accesses themselves are guarded by `len` in the embedding,
since in Go they panic on a line that is too short. -/
structure Line (K : Type) where
  len : ℕ
  c41 : Char
  body7 : String
  d59 : ℕ
  nTerms : Option ℤ
  fA : Option K
  fB : Option K
  fC : Option K
deriving DecidableEq

/-- The error values the Go construction path can return. Constructors
carrying a `lineNo` correspond to `fmt.Errorf("Line %d: ...")` errors;
`eofError` is `errors.New("Unexpected end of file.")`, which carries no
line number; `invalidPrecision` is `errors.New("Invalid precision.")`;
`readError` is an `ioutil.ReadFile` failure. -/
inductive VErr where
  | invalidPrecision
  | readError
  | bodyMismatch (lineNo : ℕ)
  | atoiError (lineNo : ℕ)
  | eofError
  | floatError (lineNo : ℕ)
deriving DecidableEq

/-- Outcome of running embedded Go code: a value, a returned error, a
runtime panic (`crash`), or fuel exhaustion (`hang`, marking that the
corresponding Go loop has not finished within the given fuel). -/
inductive PRes (α : Type) where
  | ok (a : α)
  | err (e : VErr)
  | crash
  | hang
deriving DecidableEq

/-- Sequencing of embedded computations: errors, panics and
non-termination propagate. -/
def PRes.bind {α β : Type} : PRes α → (α → PRes β) → PRes β
  | .ok a, f => f a
  | .err e, _ => .err e
  | .crash, _ => .crash
  | .hang, _ => .hang

/-- Go type `coeff`: the six per-time-power term slots of one series. -/
abbrev coeff (K : Type) := Fin 6 → List (abc K)

/-- The zero value of `coeff` (all slots empty). -/
def emptyCo (K : Type) : coeff K := fun _ => []

section ParserK

variable {K : Type} [LinearOrderedField K]

/-- The inner term loop of `coeff.parse` (vsop87.go lines 210-235) over
the slice of term lines of one block. `p` is the truncation threshold,
`base` the 0-based index of the first term line (the Go variable `n`
after its increment), `cx` the running buffer index. Mirrors the Go
code statement by statement: the `&cbuf[cx]` bounds panic (cbuf has 2047
elements), the length-guarded field slices, the `strconv.ParseFloat`
errors with line number `n+cx+1`, and the truncation break on the first
amplitude of magnitude below `p` (which discards that term and all
following ones; the Go code also prints "truncated", a side effect with
no bearing on the result). -/
def collectTerms (p : K) (base : ℕ) : ℕ → List (Line K) → PRes (List (abc K))
  | _, [] => .ok []
  | cx, l :: ls =>
    if 2047 ≤ cx then .crash
    else if l.len < 97 then .crash
    else
      match l.fA with
      | none => .err (.floatError (base + cx + 1))
      | some a =>
        if |a| < p then .ok []
        else if l.len < 111 then .crash
        else
          match l.fB with
          | none => .err (.floatError (base + cx + 1))
          | some b =>
            if l.len < 131 then .crash
            else
              match l.fC with
              | none => .err (.floatError (base + cx + 1))
              | some c =>
                match collectTerms p base (cx + 1) ls with
                | .ok rest => .ok (⟨a, b, c⟩ :: rest)
                | .err e => .err e
                | .crash => .crash
                | .hang => .hang

/-- The truncation threshold of one block (vsop87.go lines 202-206):
`p := prec / 10 / (q-2) / (d0 + it*dl*1e-4 + 1e-50); if au { p *=
a0[ibody] }`, where `d0 = at[it]` is the elapsed-time power of the
block and `dl` the previous block's `d0`. -/
def truncThreshold {K : Type} [LinearOrderedField K] (q prec dl d0 : K)
    (itn : ℕ) (au : Bool) (ibody : Fin nBodies) : K :=
  if au then
    prec / 10 / (q - 2) / (d0 + (itn : K) * dl * (1 / 10 ^ 4) + 1 / 10 ^ 50) *
      (a0 ibody : K)
  else
    prec / 10 / (q - 2) / (d0 + (itn : K) * dl * (1 / 10 ^ 4) + 1 / 10 ^ 50)

/-- The `for n < len(lines)` loop of `coeff.parse` (vsop87.go lines
173-238), with explicit fuel. State: current line index `n`, previous
block's time contribution `dl`, accumulated slots `c`. Each iteration:
stop without error on a missing/short (< 132 chars) line or an
element-marker mismatch at byte 41; body-name mismatch and Atoi failure
are errors with the 1-based line number; a declared term count of 0
loops without advancing (the Go `continue` at line 197 does not change
`n`); a count exceeding `len(lines)-n` is the "Unexpected end of file."
error; the byte `line[59] - '0'` (wrapping byte arithmetic) indexes the
6-element `at` array, panicking if out of range; the threshold `p` is
computed exactly as in the Go source; the Go slice `lines[n:n+in]`
panics when its bounds exceed the list; otherwise the block's surviving
terms replace slot `it` and the loop continues after the block. -/
def parseLoop (ic : Char) (ibody : Fin nBodies) (lines : List (Line K))
    (q prec : K) (at6 : Fin 6 → K) (au : Bool) :
    ℕ → ℕ → K → coeff K → PRes (ℕ × coeff K)
  | 0, _, _, _ => .hang
  | fuel + 1, n, dl, c =>
    match lines.get? n with
    | none => .ok (n, c)
    | some line =>
      if line.len < 132 then .ok (n, c)
      else if line.c41 ≠ ic then .ok (n, c)
      else if line.body7 ≠ b7 ibody then .err (.bodyMismatch (n + 1))
      else
        match line.nTerms with
        | none => .err (.atoiError (n + 1))
        | some tm =>
          if tm = 0 then parseLoop ic ibody lines q prec at6 au fuel n dl c
          else if (lines.length : ℤ) - (n : ℤ) < tm then .err .eofError
          else
            if hit : (line.d59 + 256 - 48) % 256 < 6 then
              if 0 ≤ tm ∧ (n : ℤ) + 1 + tm ≤ (lines.length : ℤ) then
                match
                  collectTerms
                    (truncThreshold q prec dl (at6 ⟨(line.d59 + 256 - 48) % 256, hit⟩)
                      ((line.d59 + 256 - 48) % 256) au ibody)
                    (n + 1) 0 ((lines.drop (n + 1)).take tm.toNat) with
                | .ok terms =>
                  parseLoop ic ibody lines q prec at6 au fuel (n + 1 + tm.toNat)
                    (at6 ⟨(line.d59 + 256 - 48) % 256, hit⟩)
                    (Function.update c ⟨(line.d59 + 256 - 48) % 256, hit⟩ terms)
                | .err e => .err e
                | .crash => .crash
                | .hang => .hang
              else .crash
            else .crash

/-- Go method `coeff.parse` (vsop87.go line 170): runs the loop with
`dl = 0` starting from line index `n` on the receiver slots `c`. -/
def parse (fuel : ℕ) (ic : Char) (ibody : Fin nBodies) (lines : List (Line K))
    (n : ℕ) (q prec : K) (at6 : Fin 6 → K) (au : Bool) (c : coeff K) :
    PRes (ℕ × coeff K) :=
  parseLoop ic ibody lines q prec at6 au fuel n 0 c

/-- The list of terms of a block that survive truncation at threshold
`p`: the longest prefix whose amplitudes all have magnitude at least
`p`; the first term with `|a| < p` and everything after it is dropped. -/
def keepTerms (p : K) : List (abc K) → List (abc K)
  | [] => []
  | t :: ts => if |t.a| < p then [] else t :: keepTerms p ts

/-- The term a fully well-formed line denotes: defined when the line is
long enough for all three field slices and all three float fields parse. -/
def Line.term : Line K → Option (abc K) := fun l =>
  if 131 ≤ l.len then
    match l.fA, l.fB, l.fC with
    | some a, some b, some c => some ⟨a, b, c⟩
    | _, _, _ => none
  else none

end ParserK

noncomputable section RealModel

/-- J2000 epoch Julian day (vsop87.go: `t2000`). -/
def t2000 : ℝ := 2451545

/-- Days per Julian millennium (vsop87.go: `a1000`). -/
def a1000 : ℝ := 365250

/-- Return type `Elliptic` (vsop87.go lines 60-71). -/
structure Elliptic where
  A : ℝ
  L : ℝ
  K : ℝ
  H : ℝ
  Q : ℝ
  P : ℝ
deriving DecidableEq

/-- Go struct `ellipticCoeff`: one `coeff` per orbital element. -/
structure ellipticCoeff where
  a : coeff ℝ
  l : coeff ℝ
  k : coeff ℝ
  h : coeff ℝ
  q : coeff ℝ
  p : coeff ℝ

/-- Go struct `EllipticModel`: the six cached time powers `t` and the
per-body coefficient store `c`. -/
structure EllipticModel where
  t : Fin 6 → ℝ
  c : Fin nBodies → ellipticCoeff

/-- The inner loop of `coeff.sum` (vsop87.go lines 245-247): left fold
over the stored terms of one slot, `s += term.a * cos(term.b + term.c *
ts[1])`. -/
def termSum (terms : List (abc ℝ)) (t1 : ℝ) : ℝ :=
  terms.foldl (fun s term => s + term.a * Real.cos (term.b + term.c * t1)) 0

/-- Go method `coeff.sum` (vsop87.go lines 242-251): left fold over the
six slots in ascending time-power order, `r += s * ts[it]`. -/
def coeff.sum (c : coeff ℝ) (ts : Fin 6 → ℝ) : ℝ :=
  (List.finRange 6).foldl (fun r it => r + termSum (c it) (ts 1) * ts it) 0

/-- Truncation toward zero on ℝ, the rounding used by Go `math.Trunc`
inside `math.Mod`. -/
def truncR (x : ℝ) : ℝ := if 0 ≤ x then (⌊x⌋ : ℤ) else (⌈x⌉ : ℤ)

/-- Go `math.Mod(x, y)` for positive `y`: the remainder of sign `x`
obtained by truncated division, `x - Trunc(x/y)*y`. -/
def goMod (x y : ℝ) : ℝ := x - truncR (x / y) * y

/-- vsop87.go lines 269-275 (`pmod`, copied from soniakeys/meeus):
floor-style positive modulo built from `math.Mod`. -/
def pmod (x y : ℝ) : ℝ :=
  let r := goMod x y
  if r < 0 then r + y else r

/-- Go method `EllipticModel.Pos` (vsop87.go lines 253-266). The Go code
writes the powers of the elapsed time into the model's own `t` array and
then evaluates the six series of the requested body with them; the first
component of the result is the model as it stands after the call (with
the overwritten `t`), the second the `Elliptic` record written through
the result pointer. -/
def Pos (em : EllipticModel) (tdj : ℝ) (ibody : Fin nBodies) :
    EllipticModel × Elliptic :=
  let t := (tdj - t2000) / a1000
  let ts : Fin 6 → ℝ := fun i => t ^ (i : ℕ)
  ({ em with t := ts },
    { A := coeff.sum (em.c ibody).a ts
      L := pmod (coeff.sum (em.c ibody).l ts) (2 * Real.pi)
      K := coeff.sum (em.c ibody).k ts
      H := coeff.sum (em.c ibody).h ts
      Q := coeff.sum (em.c ibody).q ts
      P := coeff.sum (em.c ibody).p ts })

/-- The specification's series formula, written as the spec states it:
`value = Σ_{k=0..5} T1^k · (Σ_{term in slot k} amplitude · cos(phase +
frequency · T1))`, the inner sum accumulated in stored term order and
the outer sum in ascending time-power order (left folds fix the exact
association of the additions). -/
def specSeries (co : coeff ℝ) (T1 : ℝ) : ℝ :=
  (List.finRange 6).foldl
    (fun acc (k : Fin 6) =>
      acc + T1 ^ (k : ℕ) *
        ((co k).foldl (fun s term => s + term.a * Real.cos (term.b + term.c * T1)) 0))
    0

/-- The zero value of `ellipticCoeff` (all slots of all elements empty). -/
def ecEmpty : ellipticCoeff :=
  ⟨emptyCo ℝ, emptyCo ℝ, emptyCo ℝ, emptyCo ℝ, emptyCo ℝ, emptyCo ℝ⟩

/-- The zero value `&EllipticModel{}` built at vsop87.go line 132. -/
def em0 : EllipticModel := ⟨fun _ => 0, fun _ => ecEmpty⟩

/-- The six chained `parse` calls for one body (vsop87.go lines
142-165): element markers '1'..'6' for a, l, k, h, q, p, threading the
line index, with `au = true` only for the semi-major-axis series. -/
def parseBody (fuel : ℕ) (ibody : Fin nBodies) (lines : List (Line ℝ))
    (q prec : ℝ) (at6 : Fin 6 → ℝ) : PRes ellipticCoeff :=
  (parse fuel '1' ibody lines 0 q prec at6 true (emptyCo ℝ)).bind fun na =>
  (parse fuel '2' ibody lines na.1 q prec at6 false (emptyCo ℝ)).bind fun nl =>
  (parse fuel '3' ibody lines nl.1 q prec at6 false (emptyCo ℝ)).bind fun nk =>
  (parse fuel '4' ibody lines nk.1 q prec at6 false (emptyCo ℝ)).bind fun nh =>
  (parse fuel '5' ibody lines nh.1 q prec at6 false (emptyCo ℝ)).bind fun nq =>
  (parse fuel '6' ibody lines nq.1 q prec at6 false (emptyCo ℝ)).bind fun np =>
  .ok ⟨na.2, nl.2, nk.2, nh.2, nq.2, np.2⟩

/-- The order in which `NewEllipticModel` processes the bodies
(vsop87.go lines 133-134). -/
def bodyOrder : List (Fin nBodies) :=
  [Mercury, Venus, EarthMoon, Mars, Jupiter, Saturn, Uranus, Neptune]

/-- The per-body loop of `NewEllipticModel` (vsop87.go lines 133-166):
read each body's file (`none` = `ioutil.ReadFile` error), parse its six
series and store them in the body's store entry; the first failure
aborts the construction. -/
def buildBodies (fuel : ℕ) (files : Fin nBodies → Option (List (Line ℝ)))
    (q prec : ℝ) (at6 : Fin 6 → ℝ) :
    List (Fin nBodies) → EllipticModel → PRes EllipticModel
  | [], em => .ok em
  | ib :: rest, em =>
    match files ib with
    | none => .err .readError
    | some lines =>
      (parseBody fuel ib lines q prec at6).bind fun ec =>
        buildBodies fuel files q prec at6 rest
          { em with c := Function.update em.c ib ec }

/-- The derived scale of vsop87.go lines 122-125:
`q := -log10(prec + 1e-50); if q < 3 { q = 3 }`. -/
def qOf (prec : ℝ) : ℝ :=
  if -(Real.logb 10 (prec + 1 / 10 ^ 50)) < 3 then 3
  else -(Real.logb 10 (prec + 1 / 10 ^ 50))

/-- The powers of the absolute elapsed time in Julian millennia built at
vsop87.go lines 126-131 (`at[0] = 1; at[i] = t * at[i-1]`). -/
def at6Of (tdj : ℝ) : Fin 6 → ℝ := fun i => (|tdj - t2000| / a1000) ^ (i : ℕ)

/-- The construction work of `NewEllipticModel` after its precision
check. -/
def buildAll (fuel : ℕ) (files : Fin nBodies → Option (List (Line ℝ)))
    (prec tdj : ℝ) : PRes EllipticModel :=
  buildBodies fuel files (qOf prec) prec (at6Of tdj) bodyOrder em0

/-- Go function `NewEllipticModel` (vsop87.go lines 118-168): rejects a
precision outside [0, 0.01] before touching any file, then parses the
eight bodies' files. -/
def NewEllipticModel (fuel : ℕ) (files : Fin nBodies → Option (List (Line ℝ)))
    (prec tdj : ℝ) : PRes EllipticModel :=
  if prec < 0 ∨ 1 / 100 < prec then .err .invalidPrecision
  else buildAll fuel files prec tdj

end RealModel

/-! Helper lemmas. -/

/-- The code's slot evaluation agrees with the specification's series
formula when the time powers are the actual powers of `t`. -/
theorem coeff_sum_eq_specSeries (co : coeff ℝ) (t : ℝ) :
    coeff.sum co (fun i => t ^ (i : ℕ)) = specSeries co t := by
  unfold coeff.sum specSeries termSum
  refine List.foldl_ext _ _ _ fun r k _ => ?_
  simp only []
  rw [show (((1 : Fin 6) : ℕ)) = 1 from rfl, pow_one]
  ring

/-- Range of `pmod` for a positive modulus. -/
theorem pmod_mem_Ico (x y : ℝ) (hy : 0 < y) : 0 ≤ pmod x y ∧ pmod x y < y := by
  have hy0 : y ≠ 0 := ne_of_gt hy
  have hxy : x / y * y = x := div_mul_cancel₀ x hy0
  unfold pmod goMod truncR
  by_cases hz : 0 ≤ x / y
  · have hfr : x - (⌊x / y⌋ : ℝ) * y = Int.fract (x / y) * y := by
      rw [Int.fract, sub_mul, hxy]
    rw [if_pos hz, hfr]
    have h0 : 0 ≤ Int.fract (x / y) * y :=
      mul_nonneg (Int.fract_nonneg _) hy.le
    rw [if_neg (not_lt.mpr h0)]
    exact ⟨h0, by
      have := (mul_lt_mul_of_pos_right (Int.fract_lt_one (x / y)) hy)
      simpa using this⟩
  · have hfr : x - (⌈x / y⌉ : ℝ) * y = (x / y - ⌈x / y⌉) * y := by
      rw [sub_mul, hxy]
    rw [if_neg hz, hfr]
    have hle : x / y - (⌈x / y⌉ : ℝ) ≤ 0 := sub_nonpos.mpr (Int.le_ceil _)
    have hgt : -1 < x / y - (⌈x / y⌉ : ℝ) := by
      have := Int.ceil_lt_add_one (x / y)
      linarith
    by_cases hneg : (x / y - (⌈x / y⌉ : ℝ)) * y < 0
    · rw [if_pos hneg]
      constructor
      · nlinarith
      · nlinarith
    · rw [if_neg hneg]
      have hle' : (x / y - (⌈x / y⌉ : ℝ)) * y ≤ 0 :=
        mul_nonpos_of_nonpos_of_nonneg hle hy.le
      constructor
      · linarith [not_lt.mp hneg]
      · have : (x / y - (⌈x / y⌉ : ℝ)) * y = 0 := le_antisymm hle' (not_lt.mp hneg)
        rw [this]; exact hy

/-! Claim theorems. -/

/-- C1: for every constructed model, date, and supported body, `Pos`
computes each orbital element by evaluating its series as
`value = Σ_{k=0..5} T1^k · (Σ_{term in slot k} amplitude · cos(phase +
frequency · T1))` with `T1 = (date - 2451545) / 365250`, the inner sum
accumulated in stored term order and the outer sum in ascending
time-power order (the left-fold association of `specSeries`); the `L`
field carries the evaluated `l` series further reduced by `pmod` as the
source does. -/
theorem c1_pos_evaluates_series (em : EllipticModel) (tdj : ℝ)
    (ibody : Fin nBodies) :
    (Pos em tdj ibody).2.A = specSeries (em.c ibody).a ((tdj - t2000) / a1000) ∧
    (Pos em tdj ibody).2.L =
      pmod (specSeries (em.c ibody).l ((tdj - t2000) / a1000)) (2 * Real.pi) ∧
    (Pos em tdj ibody).2.K = specSeries (em.c ibody).k ((tdj - t2000) / a1000) ∧
    (Pos em tdj ibody).2.H = specSeries (em.c ibody).h ((tdj - t2000) / a1000) ∧
    (Pos em tdj ibody).2.Q = specSeries (em.c ibody).q ((tdj - t2000) / a1000) ∧
    (Pos em tdj ibody).2.P = specSeries (em.c ibody).p ((tdj - t2000) / a1000) := by
  refine ⟨?_, ?_, ?_, ?_, ?_, ?_⟩ <;>
    simp only [Pos] <;> rw [coeff_sum_eq_specSeries]

/-- C7: the `L` field returned by `Pos` always lies in `[0, 2π)`,
for any model, any body, and any date (in particular dates before the
epoch, where the elapsed time is negative). -/
theorem c7_L_in_Ico (em : EllipticModel) (tdj : ℝ) (ibody : Fin nBodies) :
    0 ≤ (Pos em tdj ibody).2.L ∧ (Pos em tdj ibody).2.L < 2 * Real.pi := by
  simp only [Pos]
  exact pmod_mem_Ico _ _ (by positivity)

/-- C4 counterexample: `Pos` does mutate the model. Calling it on the
zero-valued model at the epoch overwrites the cached time power
`t[0]` with 1, so the model after the call differs from the model
before it. -/
theorem c4_counterexample : (Pos em0 t2000 Sun).1 ≠ em0 := by
  intro h
  have h0 := congrArg (fun m : EllipticModel => m.t 0) h
  norm_num [Pos, em0] at h0

/-- C4 amended: `Pos` writes the six powers of the elapsed time into the
model's `t` field (so the model is mutated), but leaves the coefficient
store `c` unchanged; the orbital elements are delivered in the
caller-visible result record. -/
theorem c4_amended_pos_touches_only_t (em : EllipticModel) (tdj : ℝ)
    (ibody : Fin nBodies) :
    (Pos em tdj ibody).1.c = em.c ∧
    (Pos em tdj ibody).1.t = fun i : Fin 6 => ((tdj - t2000) / a1000) ^ (i : ℕ) :=
  ⟨rfl, rfl⟩

/-- C9: reaching a header line shorter than 132 characters stops the
parse at that line with no error: the parse returns successfully, the
line index stays where it is, and the slots collected so far are kept
unchanged (any slot never filled stays empty). -/
theorem c9_short_header_stops {K : Type} [LinearOrderedField K]
    (ic : Char) (ibody : Fin nBodies) (lines : List (Line K)) (q prec : K)
    (at6 : Fin 6 → K) (au : Bool) (fuel n : ℕ) (dl : K) (c : coeff K)
    (hn : n < lines.length)
    (hshort : (lines.get ⟨n, hn⟩).len < 132) :
    parseLoop ic ibody lines q prec at6 au (fuel + 1) n dl c = .ok (n, c) := by
  have hget : lines.get? n = some (lines.get ⟨n, hn⟩) := List.get?_eq_get hn
  rw [parseLoop, hget]
  have hs : lines[n].len < 132 := hshort
  simp [hs]

/-- An empty line, as produced for instance by the trailing newline of a
file: length 0, every field access would be out of range. -/
def shortLine : Line ℚ :=
  { len := 0, c41 := 'x', body7 := "", d59 := 0, nTerms := none,
    fA := none, fB := none, fC := none }

/-- Witness for C9: on a file whose first line is empty, the parse
stops immediately, successfully, with untouched slots. -/
theorem c9_witness :
    (0 : ℕ) < [shortLine].length ∧ shortLine.len < 132 ∧
    parseLoop 'A' Mercury [shortLine] 3 0 (fun _ => 0) false 1 0 0 (emptyCo ℚ) =
      .ok (0, emptyCo ℚ) :=
  ⟨by decide, by decide,
    c9_short_header_stops 'A' Mercury [shortLine] 3 0 (fun _ => 0) false 0 0 0
      (emptyCo ℚ) (by decide) (by decide)⟩

/-- A header line declaring zero terms, otherwise fully well formed for
the Mercury semi-major-axis series. -/
def hdr0 : Line ℚ :=
  { len := 132, c41 := '1', body7 := "MERCURY", d59 := 48, nTerms := some 0,
    fA := none, fB := none, fC := none }

/-- C10 fails on the code: a header line whose declared term count is 0
makes the parse loop spin forever. The Go `continue` at vsop87.go line
197 re-enters the loop without advancing `n`, so the same header is read
again and again; in the fuel embedding the loop exhausts every fuel
bound without producing a result. -/
theorem c10_zero_count_loops_forever (q prec : ℚ) (at6 : Fin 6 → ℚ) (au : Bool)
    (fuel : ℕ) :
    parse fuel '1' Mercury [hdr0] 0 q prec at6 au (emptyCo ℚ) = .hang := by
  suffices h : ∀ fl (dl : ℚ) (c : coeff ℚ),
      parseLoop '1' Mercury [hdr0] q prec at6 au fl 0 dl c = .hang from
    h fuel 0 (emptyCo ℚ)
  intro fl
  induction fl with
  | zero => intro dl c; rfl
  | succ f ih => intro dl c; exact ih dl c

/-- A header line declaring one term with no term line following it:
the coefficient file is truncated mid-block. -/
def hdr1 : Line ℝ :=
  { len := 132, c41 := '1', body7 := "MERCURY", d59 := 48, nTerms := some 1,
    fA := none, fB := none, fC := none }

/-- Every body's coefficient file is the single truncated header. -/
def files6 : Fin nBodies → Option (List (Line ℝ)) := fun _ => some [hdr1]

/-- C6 fails on the code: a file truncated mid-block does not produce a
line-numbered format error. When the declared term count equals
`len(lines) - n` the bounds check `in > len(lines)-n` passes and the Go
slice expression `lines[n : n+in]` panics (index out of range); the
construction crashes instead of returning an error. (When the count
exceeds `len(lines) - n`, the code returns `errors.New("Unexpected end
of file.")`, which carries no line number either.) -/
theorem c6_truncated_file_crashes : NewEllipticModel 2 files6 0 0 = .crash := by
  unfold NewEllipticModel
  rw [if_neg (by norm_num)]
  rfl

/-- The inner term loop can only fail with a float-parse error (or a
panic); it never produces the precision configuration error. -/
theorem collectTerms_no_config {K : Type} [LinearOrderedField K] (p : K)
    (base : ℕ) :
    ∀ (ls : List (Line K)) (cx : ℕ),
      collectTerms p base cx ls ≠ .err .invalidPrecision := by
  intro ls
  induction ls with
  | nil => intro cx; simp [collectTerms]
  | cons l ls ih =>
    intro cx
    rw [collectTerms]
    repeat' split
    all_goals try simp
    rename_i e heq
    intro hcon
    exact ih _ (by rw [heq, hcon])

/-- The parse loop never produces the precision configuration error. -/
theorem parseLoop_no_config {K : Type} [LinearOrderedField K] (ic : Char)
    (ibody : Fin nBodies) (lines : List (Line K)) (q prec : K)
    (at6 : Fin 6 → K) (au : Bool) :
    ∀ (fuel n : ℕ) (dl : K) (c : coeff K),
      parseLoop ic ibody lines q prec at6 au fuel n dl c ≠
        .err .invalidPrecision := by
  intro fuel
  induction fuel with
  | zero => intro n dl c; simp [parseLoop]
  | succ f ih =>
    intro n dl c
    rw [parseLoop]
    repeat' split
    all_goals try simp
    all_goals try (exact ih _ _ _)
    rename_i e heq
    intro hcon
    exact collectTerms_no_config _ _ _ _ (by rw [heq, hcon])

/-- Propagation of "never this error" through sequencing. -/
theorem PRes.bind_ne {α β : Type} (x : PRes α) (f : α → PRes β) (e : VErr)
    (hx : x ≠ .err e) (hf : ∀ a, x = .ok a → f a ≠ .err e) :
    x.bind f ≠ .err e := by
  cases x with
  | ok a => exact hf a rfl
  | err e2 => simpa [PRes.bind] using hx
  | crash => simp [PRes.bind]
  | hang => simp [PRes.bind]

/-- A body's six-series parse never produces the precision
configuration error. -/
theorem parseBody_no_config (fuel : ℕ) (ibody : Fin nBodies)
    (lines : List (Line ℝ)) (q prec : ℝ) (at6 : Fin 6 → ℝ) :
    parseBody fuel ibody lines q prec at6 ≠ .err .invalidPrecision := by
  unfold parseBody parse
  refine PRes.bind_ne _ _ _ (parseLoop_no_config _ _ _ _ _ _ _ _ _ _ _) fun na _ => ?_
  refine PRes.bind_ne _ _ _ (parseLoop_no_config _ _ _ _ _ _ _ _ _ _ _) fun nl _ => ?_
  refine PRes.bind_ne _ _ _ (parseLoop_no_config _ _ _ _ _ _ _ _ _ _ _) fun nk _ => ?_
  refine PRes.bind_ne _ _ _ (parseLoop_no_config _ _ _ _ _ _ _ _ _ _ _) fun nh _ => ?_
  refine PRes.bind_ne _ _ _ (parseLoop_no_config _ _ _ _ _ _ _ _ _ _ _) fun nq _ => ?_
  refine PRes.bind_ne _ _ _ (parseLoop_no_config _ _ _ _ _ _ _ _ _ _ _) fun np _ => ?_
  simp

/-- The per-body construction loop never produces the precision
configuration error. -/
theorem buildBodies_no_config (fuel : ℕ)
    (files : Fin nBodies → Option (List (Line ℝ))) (q prec : ℝ)
    (at6 : Fin 6 → ℝ) :
    ∀ (l : List (Fin nBodies)) (em : EllipticModel),
      buildBodies fuel files q prec at6 l em ≠ .err .invalidPrecision := by
  intro l
  induction l with
  | nil => intro em; simp [buildBodies]
  | cons ib rest ih =>
    intro em
    rw [buildBodies]
    cases files ib with
    | none => simp
    | some lines =>
      exact PRes.bind_ne _ _ _ (parseBody_no_config _ _ _ _ _ _) fun ec _ => ih _

/-- C5: a precision outside `[0, 0.01]` is rejected with the
configuration error before any file is looked at (the result does not
depend on the file contents), and a precision inside the range,
boundaries included, never yields that error. -/
theorem c5_precision_range (fuel : ℕ)
    (files : Fin nBodies → Option (List (Line ℝ))) (tdj prec : ℝ) :
    ((prec < 0 ∨ 1 / 100 < prec) →
      NewEllipticModel fuel files prec tdj = .err .invalidPrecision) ∧
    (0 ≤ prec → prec ≤ 1 / 100 →
      NewEllipticModel fuel files prec tdj ≠ .err .invalidPrecision) := by
  constructor
  · intro h
    unfold NewEllipticModel
    rw [if_pos h]
  · intro h0 h1
    unfold NewEllipticModel buildAll
    rw [if_neg (by push_neg; exact ⟨h0, h1⟩)]
    exact buildBodies_no_config _ _ _ _ _ _ _

/-- Witness for C5 at the concrete precisions named by the claim:
-0.001 and 0.02 are rejected, 0 and 0.01 are not, for any file layout
(here: all files missing). -/
theorem c5_witness :
    NewEllipticModel 1 (fun _ => none) (-1 / 1000) 0 = .err .invalidPrecision ∧
    NewEllipticModel 1 (fun _ => none) (1 / 50) 0 = .err .invalidPrecision ∧
    NewEllipticModel 1 (fun _ => none) 0 0 ≠ .err .invalidPrecision ∧
    NewEllipticModel 1 (fun _ => none) (1 / 100) 0 ≠ .err .invalidPrecision :=
  ⟨(c5_precision_range 1 (fun _ => none) 0 (-1 / 1000)).1 (Or.inl (by norm_num)),
   (c5_precision_range 1 (fun _ => none) 0 (1 / 50)).1 (Or.inr (by norm_num)),
   (c5_precision_range 1 (fun _ => none) 0 0).2 le_rfl (by norm_num),
   (c5_precision_range 1 (fun _ => none) 0 (1 / 100)).2 (by norm_num) le_rfl⟩

/-- On a block of fully well-formed term lines (long enough, all three
fields parse) that fits in the term buffer, the inner loop succeeds and
returns exactly the prefix that survives the amplitude threshold. -/
theorem collectTerms_wf {K : Type} [LinearOrderedField K] (p : K) (base : ℕ) :
    ∀ (ls : List (Line K)) (ts : List (abc K)) (cx : ℕ),
      ls.map Line.term = ts.map some →
      cx + ls.length ≤ 2047 →
      collectTerms p base cx ls = .ok (keepTerms p ts) := by
  intro ls
  induction ls with
  | nil =>
    intro ts cx hmap _
    have hts : ts = [] := by cases ts <;> simp_all
    subst hts
    simp [collectTerms, keepTerms]
  | cons l ls ih =>
    intro ts cx hmap hlen
    cases ts with
    | nil => simp at hmap
    | cons t ts2 =>
      simp only [List.map_cons, List.cons.injEq] at hmap
      obtain ⟨hterm, hrest⟩ := hmap
      unfold Line.term at hterm
      by_cases hl : 131 ≤ l.len
      · rw [if_pos hl] at hterm
        simp only [List.length_cons] at hlen
        cases hfa : l.fA with
        | none => rw [hfa] at hterm; simp at hterm
        | some a =>
          cases hfb : l.fB with
          | none => rw [hfa, hfb] at hterm; simp at hterm
          | some b =>
            cases hfc : l.fC with
            | none => rw [hfa, hfb, hfc] at hterm; simp at hterm
            | some c0 =>
              rw [hfa, hfb, hfc] at hterm
              simp only [Option.some.injEq] at hterm
              subst hterm
              rw [collectTerms]
              simp only [hfa, hfb, hfc]
              rw [if_neg (by omega), if_neg (by omega)]
              by_cases hp : |a| < p
              · rw [if_pos hp]
                simp [keepTerms, hp]
              · rw [if_neg hp, if_neg (by omega), if_neg (by omega)]
                rw [ih ts2 (cx + 1) hrest (by omega)]
                simp [keepTerms, hp]
      · rw [if_neg hl] at hterm
        simp at hterm

/-- C2: one loop iteration on a well-formed block header stores in the
block's slot exactly the terms that precede the first amplitude of
magnitude below the threshold, the threshold being
`prec/10/(q-2)/(d0 + it·dl·1e-4 + 1e-50)`, scaled by the body's nominal
distance only for the semi-major-axis series (`au`), with
`q = max(3, -log10(prec + 1e-50))` and `d0` the block's elapsed-time
power, exactly as `NewEllipticModel` passes them; the loop then resumes
after the block with `dl` set to `d0`. -/
theorem c2_block_truncation (prec tdj : ℝ) (ic : Char) (ibody : Fin nBodies)
    (lines : List (Line ℝ)) (au : Bool) (fuel n : ℕ) (dl : ℝ) (c : coeff ℝ)
    (line : Line ℝ) (tm : ℤ) (ts : List (abc ℝ))
    (hget : lines.get? n = some line)
    (hlen : 132 ≤ line.len)
    (hic : line.c41 = ic)
    (hbody : line.body7 = b7 ibody)
    (hcnt : line.nTerms = some tm)
    (hpos : 0 < tm)
    (hrem : tm ≤ (lines.length : ℤ) - (n : ℤ) - 1)
    (hbuf : tm ≤ 2047)
    (hit : (line.d59 + 256 - 48) % 256 < 6)
    (hwf : ((lines.drop (n + 1)).take tm.toNat).map Line.term = ts.map some) :
    parseLoop ic ibody lines (qOf prec) prec (at6Of tdj) au (fuel + 1) n dl c =
      parseLoop ic ibody lines (qOf prec) prec (at6Of tdj) au fuel
        (n + 1 + tm.toNat) (at6Of tdj ⟨(line.d59 + 256 - 48) % 256, hit⟩)
        (Function.update c ⟨(line.d59 + 256 - 48) % 256, hit⟩
          (keepTerms
            (truncThreshold (qOf prec) prec dl
              (at6Of tdj ⟨(line.d59 + 256 - 48) % 256, hit⟩)
              ((line.d59 + 256 - 48) % 256) au ibody)
            ts)) := by
  rw [parseLoop, hget]
  simp only [hcnt, hic, hbody]
  rw [if_neg (show ¬line.len < 132 by omega)]
  rw [if_neg (show ¬(ic ≠ ic) from fun h => h rfl)]
  rw [if_neg (show ¬(b7 ibody ≠ b7 ibody) from fun h => h rfl)]
  rw [if_neg (show ¬tm = 0 by omega)]
  rw [if_neg (show ¬((lines.length : ℤ) - (n : ℤ) < tm) by omega)]
  rw [dif_pos hit]
  rw [if_pos (show (0 : ℤ) ≤ tm ∧ (n : ℤ) + 1 + tm ≤ (lines.length : ℤ) by
    constructor <;> omega)]
  rw [collectTerms_wf _ (n + 1) _ ts 0 hwf
    (by simp only [List.length_take]; omega)]

/-! Prefix helpers used for precision monotonicity. -/

/-- The empty list is a prefix of every list. -/
theorem isPre_nil {α : Type} (l : List α) : List.IsPrefix [] l := ⟨l, rfl⟩

/-- Every list is a prefix of itself. -/
theorem isPre_refl {α : Type} (l : List α) : List.IsPrefix l l := ⟨[], by simp⟩

/-- Prefixes extend along a shared head. -/
theorem isPre_cons {α : Type} {l1 l2 : List α} (a : α)
    (h : List.IsPrefix l1 l2) : List.IsPrefix (a :: l1) (a :: l2) := by
  obtain ⟨t, ht⟩ := h
  exact ⟨t, by rw [List.cons_append, ht]⟩

/-- Members of a prefix are members of the whole list. -/
theorem isPre_mem {α : Type} {l1 l2 : List α} {a : α}
    (h : List.IsPrefix l1 l2) (ha : a ∈ l1) : a ∈ l2 := by
  obtain ⟨t, ht⟩ := h
  exact ht ▸ List.mem_append_left _ ha

/-- All nominal distance scales are nonnegative. -/
theorem a0_nonneg : ∀ ib : Fin nBodies, (0 : ℚ) ≤ a0 ib := by
  intro ib
  fin_cases ib <;> norm_num [a0]

/-- The truncation threshold grows with the requested precision: with
the same block data (`dl`, `d0`, time power, scale flag) a run whose
`prec/10/(q-2)` numerator is smaller gets the smaller threshold. -/
theorem truncThreshold_mono {K : Type} [LinearOrderedField K]
    {q1 prec1 q2 prec2 dl d0 : K} (itn : ℕ) (au : Bool) (ibody : Fin nBodies)
    (hnum : prec1 / 10 / (q1 - 2) ≤ prec2 / 10 / (q2 - 2))
    (hdl : 0 ≤ dl) (hd0 : 0 ≤ d0) :
    truncThreshold q1 prec1 dl d0 itn au ibody ≤
      truncThreshold q2 prec2 dl d0 itn au ibody := by
  have hx : (0 : K) ≤ (itn : K) * dl * (1 / 10 ^ 4) :=
    mul_nonneg (mul_nonneg (Nat.cast_nonneg _) hdl) (by norm_num)
  have he : (0 : K) < 1 / 10 ^ 50 := by norm_num
  have hden : (0 : K) < d0 + (itn : K) * dl * (1 / 10 ^ 4) + 1 / 10 ^ 50 := by
    linarith
  have hdiv :
      prec1 / 10 / (q1 - 2) / (d0 + (itn : K) * dl * (1 / 10 ^ 4) + 1 / 10 ^ 50) ≤
        prec2 / 10 / (q2 - 2) / (d0 + (itn : K) * dl * (1 / 10 ^ 4) + 1 / 10 ^ 50) :=
    (div_le_div_iff_of_pos_right hden).mpr hnum
  have hsc : (0 : K) ≤ (a0 ibody : K) := by
    exact_mod_cast a0_nonneg ibody
  unfold truncThreshold
  cases au with
  | false => simpa using hdiv
  | true => simpa using mul_le_mul_of_nonneg_right hdiv hsc

/-- If the same block is collected with two thresholds `p1 ≤ p2` and
both runs succeed, the `p2`-run's terms are a prefix of the `p1`-run's
(the larger threshold can only break earlier). -/
theorem collectTerms_mono {K : Type} [LinearOrderedField K] {p1 p2 : K}
    (hp : p1 ≤ p2) (base : ℕ) :
    ∀ (ls : List (Line K)) (cx : ℕ) (l1 l2 : List (abc K)),
      collectTerms p1 base cx ls = .ok l1 →
      collectTerms p2 base cx ls = .ok l2 →
      List.IsPrefix l2 l1 := by
  intro ls
  induction ls with
  | nil =>
    intro cx l1 l2 h1 h2
    rw [collectTerms] at h1 h2
    cases h1
    cases h2
    exact isPre_nil _
  | cons l ls ih =>
    intro cx l1 l2 h1 h2
    rw [collectTerms] at h1 h2
    by_cases hg1 : 2047 ≤ cx
    · rw [if_pos hg1] at h1; cases h1
    rw [if_neg hg1] at h1 h2
    by_cases hg2 : l.len < 97
    · rw [if_pos hg2] at h1; cases h1
    rw [if_neg hg2] at h1 h2
    cases hfa : l.fA with
    | none => simp only [hfa] at h1; cases h1
    | some a =>
      simp only [hfa] at h1 h2
      by_cases hb2 : |a| < p2
      · rw [if_pos hb2] at h2
        cases h2
        exact isPre_nil _
      · have hb1 : ¬|a| < p1 := fun hlt => hb2 (lt_of_lt_of_le hlt hp)
        rw [if_neg hb1] at h1
        rw [if_neg hb2] at h2
        by_cases hg3 : l.len < 111
        · rw [if_pos hg3] at h1; cases h1
        rw [if_neg hg3] at h1 h2
        cases hfb : l.fB with
        | none => simp only [hfb] at h1; cases h1
        | some b =>
          simp only [hfb] at h1 h2
          by_cases hg4 : l.len < 131
          · rw [if_pos hg4] at h1; cases h1
          rw [if_neg hg4] at h1 h2
          cases hfc : l.fC with
          | none => simp only [hfc] at h1; cases h1
          | some c0 =>
            simp only [hfc] at h1 h2
            cases hr1 : collectTerms p1 base (cx + 1) ls with
            | ok r1 =>
              cases hr2 : collectTerms p2 base (cx + 1) ls with
              | ok r2 =>
                simp only [hr1] at h1
                simp only [hr2] at h2
                cases h1
                cases h2
                exact isPre_cons _ (ih (cx + 1) r1 r2 hr1 hr2)
              | err e => simp only [hr2] at h2; cases h2
              | crash => simp only [hr2] at h2; cases h2
              | hang => simp only [hr2] at h2; cases h2
            | err e => simp only [hr1] at h1; cases h1
            | crash => simp only [hr1] at h1; cases h1
            | hang => simp only [hr1] at h1; cases h1

/-- Core of precision monotonicity: two parse-loop runs over the same
lines with the same time powers but different precisions advance in
lockstep, and whenever both succeed the higher-precision (smaller
threshold, here run 1) store holds the lower-precision store slotwise
as prefixes. -/
theorem parseLoop_mono {K : Type} [LinearOrderedField K] (ic : Char)
    (ibody : Fin nBodies) (lines : List (Line K)) (q1 prec1 q2 prec2 : K)
    (at6 : Fin 6 → K) (au : Bool)
    (hat : ∀ i, 0 ≤ at6 i)
    (hnum : prec1 / 10 / (q1 - 2) ≤ prec2 / 10 / (q2 - 2)) :
    ∀ (fuel n : ℕ) (dl : K) (c1 c2 : coeff K) (r1 r2 : ℕ × coeff K),
      0 ≤ dl →
      (∀ i, List.IsPrefix (c2 i) (c1 i)) →
      parseLoop ic ibody lines q1 prec1 at6 au fuel n dl c1 = .ok r1 →
      parseLoop ic ibody lines q2 prec2 at6 au fuel n dl c2 = .ok r2 →
      r1.1 = r2.1 ∧ ∀ i, List.IsPrefix (r2.2 i) (r1.2 i) := by
  intro fuel
  induction fuel with
  | zero =>
    intro n dl c1 c2 r1 r2 _ _ h1 h2
    rw [parseLoop] at h1
    cases h1
  | succ f ih =>
    intro n dl c1 c2 r1 r2 hdl hpre h1 h2
    rw [parseLoop] at h1 h2
    cases hget : lines.get? n with
    | none =>
      simp only [hget] at h1 h2
      cases h1
      cases h2
      exact ⟨rfl, hpre⟩
    | some line =>
      simp only [hget] at h1 h2
      by_cases hL : line.len < 132
      · rw [if_pos hL] at h1 h2; cases h1; cases h2; exact ⟨rfl, hpre⟩
      rw [if_neg hL] at h1 h2
      by_cases hC : line.c41 ≠ ic
      · rw [if_pos hC] at h1 h2; cases h1; cases h2; exact ⟨rfl, hpre⟩
      rw [if_neg hC] at h1 h2
      by_cases hB : line.body7 ≠ b7 ibody
      · rw [if_pos hB] at h1; cases h1
      rw [if_neg hB] at h1 h2
      cases hnt : line.nTerms with
      | none => simp only [hnt] at h1; cases h1
      | some tm =>
        simp only [hnt] at h1 h2
        by_cases h0 : tm = 0
        · rw [if_pos h0] at h1 h2
          exact ih n dl c1 c2 r1 r2 hdl hpre h1 h2
        rw [if_neg h0] at h1 h2
        by_cases heof : (lines.length : ℤ) - (n : ℤ) < tm
        · rw [if_pos heof] at h1; cases h1
        rw [if_neg heof] at h1 h2
        by_cases hit : (line.d59 + 256 - 48) % 256 < 6
        · rw [dif_pos hit] at h1 h2
          by_cases hsl : 0 ≤ tm ∧ (n : ℤ) + 1 + tm ≤ (lines.length : ℤ)
          · rw [if_pos hsl] at h1 h2
            split at h1
            · rename_i terms1 heq1
              split at h2
              · rename_i terms2 heq2
                have hth :=
                  truncThreshold_mono ((line.d59 + 256 - 48) % 256) au ibody
                    hnum hdl (hat ⟨(line.d59 + 256 - 48) % 256, hit⟩)
                have hpref : List.IsPrefix terms2 terms1 :=
                  collectTerms_mono hth (n + 1) _ 0 terms1 terms2 heq1 heq2
                refine ih _ _ _ _ _ _ (hat _) ?_ h1 h2
                intro i
                by_cases hi : i = ⟨(line.d59 + 256 - 48) % 256, hit⟩
                · subst hi
                  rw [Function.update_same, Function.update_same]
                  exact hpref
                · rw [Function.update_noteq hi, Function.update_noteq hi]
                  exact hpre i
              · cases h2
              · cases h2
              · cases h2
            · cases h1
            · cases h1
            · cases h1
          · rw [if_neg hsl] at h1; cases h1
        · rw [dif_neg hit] at h1; cases h1

/-- Inversion of sequencing: a successful bind comes from a successful
first step. -/
theorem PRes.bind_eq_ok {α β : Type} {x : PRes α} {f : α → PRes β} {b : β}
    (h : x.bind f = .ok b) : ∃ a, x = .ok a ∧ f a = .ok b := by
  cases x with
  | ok a => exact ⟨a, rfl, h⟩
  | err e => simp [PRes.bind] at h
  | crash => simp [PRes.bind] at h
  | hang => simp [PRes.bind] at h

/-- Slotwise prefix order between two element stores. -/
def ecPrefix (x y : ellipticCoeff) : Prop :=
  (∀ i, List.IsPrefix (x.a i) (y.a i)) ∧
  (∀ i, List.IsPrefix (x.l i) (y.l i)) ∧
  (∀ i, List.IsPrefix (x.k i) (y.k i)) ∧
  (∀ i, List.IsPrefix (x.h i) (y.h i)) ∧
  (∀ i, List.IsPrefix (x.q i) (y.q i)) ∧
  (∀ i, List.IsPrefix (x.p i) (y.p i))

/-- Precision monotonicity for one body's six chained parses. -/
theorem parseBody_mono (fuel : ℕ) (ibody : Fin nBodies)
    (lines : List (Line ℝ)) (q1 prec1 q2 prec2 : ℝ) (at6 : Fin 6 → ℝ)
    (hat : ∀ i, 0 ≤ at6 i)
    (hnum : prec1 / 10 / (q1 - 2) ≤ prec2 / 10 / (q2 - 2))
    (ec1 ec2 : ellipticCoeff)
    (h1 : parseBody fuel ibody lines q1 prec1 at6 = .ok ec1)
    (h2 : parseBody fuel ibody lines q2 prec2 at6 = .ok ec2) :
    ecPrefix ec2 ec1 := by
  unfold parseBody parse at h1 h2
  obtain ⟨na1, ha1, h1⟩ := PRes.bind_eq_ok h1
  obtain ⟨na2, ha2, h2⟩ := PRes.bind_eq_ok h2
  obtain ⟨hna, hpa⟩ :=
    parseLoop_mono _ _ _ _ _ _ _ _ _ hat hnum fuel 0 0 _ _ _ _ le_rfl
      (fun i => isPre_refl _) ha1 ha2
  rw [← hna] at h2
  obtain ⟨nl1, hl1, h1⟩ := PRes.bind_eq_ok h1
  obtain ⟨nl2, hl2, h2⟩ := PRes.bind_eq_ok h2
  obtain ⟨hnl, hpl⟩ :=
    parseLoop_mono _ _ _ _ _ _ _ _ _ hat hnum fuel na1.1 0 _ _ _ _ le_rfl
      (fun i => isPre_refl _) hl1 hl2
  rw [← hnl] at h2
  obtain ⟨nk1, hk1, h1⟩ := PRes.bind_eq_ok h1
  obtain ⟨nk2, hk2, h2⟩ := PRes.bind_eq_ok h2
  obtain ⟨hnk, hpk⟩ :=
    parseLoop_mono _ _ _ _ _ _ _ _ _ hat hnum fuel nl1.1 0 _ _ _ _ le_rfl
      (fun i => isPre_refl _) hk1 hk2
  rw [← hnk] at h2
  obtain ⟨nh1, hh1, h1⟩ := PRes.bind_eq_ok h1
  obtain ⟨nh2, hh2, h2⟩ := PRes.bind_eq_ok h2
  obtain ⟨hnh, hph⟩ :=
    parseLoop_mono _ _ _ _ _ _ _ _ _ hat hnum fuel nk1.1 0 _ _ _ _ le_rfl
      (fun i => isPre_refl _) hh1 hh2
  rw [← hnh] at h2
  obtain ⟨nq1, hq1, h1⟩ := PRes.bind_eq_ok h1
  obtain ⟨nq2, hq2, h2⟩ := PRes.bind_eq_ok h2
  obtain ⟨hnq, hpq⟩ :=
    parseLoop_mono _ _ _ _ _ _ _ _ _ hat hnum fuel nh1.1 0 _ _ _ _ le_rfl
      (fun i => isPre_refl _) hq1 hq2
  rw [← hnq] at h2
  obtain ⟨np1, hp1, h1⟩ := PRes.bind_eq_ok h1
  obtain ⟨np2, hp2, h2⟩ := PRes.bind_eq_ok h2
  obtain ⟨hnp, hpp⟩ :=
    parseLoop_mono _ _ _ _ _ _ _ _ _ hat hnum fuel nq1.1 0 _ _ _ _ le_rfl
      (fun i => isPre_refl _) hp1 hp2
  cases h1
  cases h2
  exact ⟨hpa, hpl, hpk, hph, hpq, hpp⟩

/-- Precision monotonicity through the per-body construction loop. -/
theorem buildBodies_mono (fuel : ℕ)
    (files : Fin nBodies → Option (List (Line ℝ))) (q1 prec1 q2 prec2 : ℝ)
    (at6 : Fin 6 → ℝ) (hat : ∀ i, 0 ≤ at6 i)
    (hnum : prec1 / 10 / (q1 - 2) ≤ prec2 / 10 / (q2 - 2)) :
    ∀ (l : List (Fin nBodies)) (em1 em2 r1 r2 : EllipticModel),
      (∀ ib, ecPrefix (em2.c ib) (em1.c ib)) →
      buildBodies fuel files q1 prec1 at6 l em1 = .ok r1 →
      buildBodies fuel files q2 prec2 at6 l em2 = .ok r2 →
      ∀ ib, ecPrefix (r2.c ib) (r1.c ib) := by
  intro l
  induction l with
  | nil =>
    intro em1 em2 r1 r2 hinv h1 h2
    rw [buildBodies] at h1 h2
    cases h1
    cases h2
    exact hinv
  | cons b rest ih =>
    intro em1 em2 r1 r2 hinv h1 h2
    rw [buildBodies] at h1 h2
    cases hf : files b with
    | none => simp only [hf] at h1; cases h1
    | some lines =>
      simp only [hf] at h1 h2
      obtain ⟨ec1, hpb1, h1⟩ := PRes.bind_eq_ok h1
      obtain ⟨ec2, hpb2, h2⟩ := PRes.bind_eq_ok h2
      have hec : ecPrefix ec2 ec1 :=
        parseBody_mono fuel b lines q1 prec1 q2 prec2 at6 hat hnum ec1 ec2
          hpb1 hpb2
      refine ih _ _ r1 r2 ?_ h1 h2
      intro ib
      by_cases hb : ib = b
      · subst hb
        simp only [Function.update_same]
        exact hec
      · simp only [Function.update_noteq hb]
        exact hinv ib

/-- The derived scale is at least 3. -/
theorem qOf_ge_three (prec : ℝ) : 3 ≤ qOf prec := by
  unfold qOf
  split
  · exact le_rfl
  · next h => exact not_lt.mp h

/-- The derived scale shrinks as the precision grows. -/
theorem qOf_antitone {p1 p2 : ℝ} (h0 : 0 ≤ p1) (h12 : p1 ≤ p2) :
    qOf p2 ≤ qOf p1 := by
  have he : (0 : ℝ) < 1 / 10 ^ 50 := by norm_num
  have hl : Real.logb 10 (p1 + 1 / 10 ^ 50) ≤ Real.logb 10 (p2 + 1 / 10 ^ 50) :=
    Real.logb_le_logb_of_le (by norm_num) (by linarith) (by linarith)
  have hn : -(Real.logb 10 (p2 + 1 / 10 ^ 50)) ≤
      -(Real.logb 10 (p1 + 1 / 10 ^ 50)) := neg_le_neg hl
  unfold qOf
  split <;> split <;> first
    | exact le_rfl
    | (next h1 h2 => linarith [not_lt.mp h1])
    | (next h1 h2 => linarith [not_lt.mp h2])

/-- The threshold numerator `prec/10/(q-2)` is monotone in the
precision when `q` is the derived scale of the construction. -/
theorem num_mono {p1 p2 : ℝ} (h0 : 0 ≤ p1) (h12 : p1 ≤ p2) :
    p1 / 10 / (qOf p1 - 2) ≤ p2 / 10 / (qOf p2 - 2) := by
  have h3a := qOf_ge_three p1
  have h3b := qOf_ge_three p2
  have hq := qOf_antitone h0 h12
  have step1 : p1 / 10 / (qOf p1 - 2) ≤ p1 / 10 / (qOf p2 - 2) :=
    div_le_div_of_nonneg_left (by linarith) (by linarith) (by linarith)
  have step2 : p1 / 10 / (qOf p2 - 2) ≤ p2 / 10 / (qOf p2 - 2) :=
    (div_le_div_iff_of_pos_right (by linarith)).mpr (by linarith)
  linarith

/-- The construction's time powers are nonnegative. -/
theorem at6Of_nonneg (tdj : ℝ) : ∀ i, 0 ≤ at6Of tdj i := by
  intro i
  unfold at6Of a1000
  positivity

/-- C3: precision monotonicity of construction. If two constructions
over the same files and reference date both succeed, one at precision
`p1` and one at a larger precision `p2`, then every term kept by the
`p2` construction in any body/element/time-power slot is also kept by
the `p1` construction (the `p2` slot is a prefix of the `p1` slot, so a
superset is kept by the smaller precision). -/
theorem c3_precision_monotone (fuel : ℕ)
    (files : Fin nBodies → Option (List (Line ℝ))) (tdj p1 p2 : ℝ)
    (em1 em2 : EllipticModel)
    (h12 : p1 < p2)
    (h1 : NewEllipticModel fuel files p1 tdj = .ok em1)
    (h2 : NewEllipticModel fuel files p2 tdj = .ok em2) :
    ∀ (ib : Fin nBodies) (i : Fin 6),
      (∀ t ∈ (em2.c ib).a i, t ∈ (em1.c ib).a i) ∧
      (∀ t ∈ (em2.c ib).l i, t ∈ (em1.c ib).l i) ∧
      (∀ t ∈ (em2.c ib).k i, t ∈ (em1.c ib).k i) ∧
      (∀ t ∈ (em2.c ib).h i, t ∈ (em1.c ib).h i) ∧
      (∀ t ∈ (em2.c ib).q i, t ∈ (em1.c ib).q i) ∧
      (∀ t ∈ (em2.c ib).p i, t ∈ (em1.c ib).p i) := by
  have hv1 : ¬(p1 < 0 ∨ 1 / 100 < p1) := by
    intro hv
    unfold NewEllipticModel at h1
    rw [if_pos hv] at h1
    cases h1
  have hv2 : ¬(p2 < 0 ∨ 1 / 100 < p2) := by
    intro hv
    unfold NewEllipticModel at h2
    rw [if_pos hv] at h2
    cases h2
  push_neg at hv1 hv2
  have h0 : 0 ≤ p1 := hv1.1
  unfold NewEllipticModel buildAll at h1 h2
  rw [if_neg (by push_neg; exact hv1)] at h1
  rw [if_neg (by push_neg; exact hv2)] at h2
  have hmono :=
    buildBodies_mono fuel files (qOf p1) p1 (qOf p2) p2 (at6Of tdj)
      (at6Of_nonneg tdj) (num_mono h0 h12.le) bodyOrder em0 em0 em1 em2
      (fun ib => ⟨fun i => isPre_refl _, fun i => isPre_refl _,
        fun i => isPre_refl _, fun i => isPre_refl _,
        fun i => isPre_refl _, fun i => isPre_refl _⟩)
      h1 h2
  intro ib i
  obtain ⟨ha, hl, hk, hh, hq, hp⟩ := hmono ib
  exact ⟨fun t ht => isPre_mem (ha i) ht, fun t ht => isPre_mem (hl i) ht,
    fun t ht => isPre_mem (hk i) ht, fun t ht => isPre_mem (hh i) ht,
    fun t ht => isPre_mem (hq i) ht, fun t ht => isPre_mem (hp i) ht⟩

/-- The construction loop only writes store entries of the bodies it
visits. -/
theorem buildBodies_c_of_not_mem (fuel : ℕ)
    (files : Fin nBodies → Option (List (Line ℝ))) (q prec : ℝ)
    (at6 : Fin 6 → ℝ) :
    ∀ (l : List (Fin nBodies)) (em em2 : EllipticModel) (ib : Fin nBodies),
      ib ∉ l →
      buildBodies fuel files q prec at6 l em = .ok em2 →
      em2.c ib = em.c ib := by
  intro l
  induction l with
  | nil =>
    intro em em2 ib _ h
    rw [buildBodies] at h
    cases h
    rfl
  | cons b rest ih =>
    intro em em2 ib hmem h
    rw [buildBodies] at h
    cases hf : files b with
    | none => simp only [hf] at h; cases h
    | some lines =>
      simp only [hf] at h
      obtain ⟨ec, hpb, h⟩ := PRes.bind_eq_ok h
      have hrest : ib ∉ rest := fun hr => hmem (List.mem_cons_of_mem _ hr)
      have hne : ib ≠ b := fun he => hmem (he ▸ List.mem_cons_self _ _)
      rw [ih _ em2 ib hrest h]
      exact Function.update_noteq hne _ _

/-- Evaluating an all-empty store slot set gives zero. -/
theorem coeff_sum_empty (ts : Fin 6 → ℝ) : coeff.sum (emptyCo ℝ) ts = 0 := by
  have hfold : ∀ (l : List (Fin 6)) (r : ℝ),
      l.foldl (fun r it => r + termSum (emptyCo ℝ it) (ts 1) * ts it) r = r := by
    intro l
    induction l with
    | nil => intro r; rfl
    | cons x xs ihx =>
      intro r
      rw [List.foldl_cons, show termSum (emptyCo ℝ x) (ts 1) = 0 from rfl,
        zero_mul, add_zero]
      exact ihx r
  exact hfold _ 0

/-- The positive modulo of zero is zero. -/
theorem pmod_zero (y : ℝ) : pmod 0 y = 0 := by
  unfold pmod goMod truncR
  norm_num

/-- C8: a successfully constructed model never populates the store
entries of `Sun` or `Earth` (proper), so `Pos` on those bodies returns
the all-zero record, for every query date; no error is possible (`Pos`
is total). -/
theorem c8_sun_earth_zero (fuel : ℕ)
    (files : Fin nBodies → Option (List (Line ℝ))) (prec tdj : ℝ)
    (em : EllipticModel)
    (h : NewEllipticModel fuel files prec tdj = .ok em) (tq : ℝ) :
    (Pos em tq Sun).2 = ⟨0, 0, 0, 0, 0, 0⟩ ∧
    (Pos em tq Earth).2 = ⟨0, 0, 0, 0, 0, 0⟩ := by
  have hem : ∀ ib : Fin nBodies, ib ∉ bodyOrder → em.c ib = ecEmpty := by
    intro ib hmem
    unfold NewEllipticModel buildAll at h
    by_cases hv : prec < 0 ∨ 1 / 100 < prec
    · rw [if_pos hv] at h; cases h
    · rw [if_neg hv] at h
      exact buildBodies_c_of_not_mem fuel files _ prec _ bodyOrder em0 em ib
        hmem h
  constructor
  · have hs : em.c Sun = ecEmpty := hem Sun (by decide)
    simp [Pos, hs, ecEmpty, coeff_sum_empty, pmod_zero]
  · have hs : em.c Earth = ecEmpty := hem Earth (by decide)
    simp [Pos, hs, ecEmpty, coeff_sum_empty, pmod_zero]

/-- Every body's coefficient file exists and is empty. -/
def filesEmpty : Fin nBodies → Option (List (Line ℝ)) := fun _ => some []

/-- The model that construction over `filesEmpty` produces: zero time
powers and an empty element store entry written for each of the eight
parsed bodies. -/
def emW : EllipticModel :=
  { t := fun _ => 0,
    c := Function.update (Function.update (Function.update (Function.update
          (Function.update (Function.update (Function.update (Function.update
            em0.c Mercury ecEmpty) Venus ecEmpty) EarthMoon ecEmpty)
          Mars ecEmpty) Jupiter ecEmpty) Saturn ecEmpty) Uranus ecEmpty)
        Neptune ecEmpty }

/-- Construction over empty files at precision 0 succeeds with `emW`. -/
theorem nem_empty_ok_zero : NewEllipticModel 1 filesEmpty 0 0 = .ok emW := by
  unfold NewEllipticModel
  rw [if_neg (by norm_num)]
  rfl

/-- Construction over empty files at precision 0.01 succeeds with
`emW`. -/
theorem nem_empty_ok_boundary :
    NewEllipticModel 1 filesEmpty (1 / 100) 0 = .ok emW := by
  unfold NewEllipticModel
  rw [if_neg (by norm_num)]
  rfl

/-- Witness for C8: a concrete successful construction, after which
querying Sun and Earth at an arbitrary date returns all zeros. -/
theorem c8_witness :
    NewEllipticModel 1 filesEmpty 0 0 = .ok emW ∧
    (Pos emW 5 Sun).2 = ⟨0, 0, 0, 0, 0, 0⟩ ∧
    (Pos emW 5 Earth).2 = ⟨0, 0, 0, 0, 0, 0⟩ :=
  ⟨nem_empty_ok_zero,
   (c8_sun_earth_zero 1 filesEmpty 0 0 emW nem_empty_ok_zero 5).1,
   (c8_sun_earth_zero 1 filesEmpty 0 0 emW nem_empty_ok_zero 5).2⟩

/-- Witness for C3: two concrete successful constructions at precisions
0 < 0.01, whose kept term sets satisfy the monotonicity conclusion. -/
theorem c3_witness :
    (0 : ℝ) < 1 / 100 ∧
    (∀ (ib : Fin nBodies) (i : Fin 6),
      (∀ t ∈ (emW.c ib).a i, t ∈ (emW.c ib).a i) ∧
      (∀ t ∈ (emW.c ib).l i, t ∈ (emW.c ib).l i) ∧
      (∀ t ∈ (emW.c ib).k i, t ∈ (emW.c ib).k i) ∧
      (∀ t ∈ (emW.c ib).h i, t ∈ (emW.c ib).h i) ∧
      (∀ t ∈ (emW.c ib).q i, t ∈ (emW.c ib).q i) ∧
      (∀ t ∈ (emW.c ib).p i, t ∈ (emW.c ib).p i)) :=
  ⟨by norm_num,
   c3_precision_monotone 1 filesEmpty 0 0 (1 / 100) emW emW (by norm_num)
     nem_empty_ok_zero nem_empty_ok_boundary⟩

/-- A well-formed header line for the Mercury mean-longitude series
declaring one term at time power 0. -/
def hdrW : Line ℝ :=
  { len := 132, c41 := '2', body7 := "MERCURY", d59 := 48, nTerms := some 1,
    fA := none, fB := none, fC := none }

/-- A well-formed term line with amplitude 5, phase 0, frequency 0. -/
def termW : Line ℝ :=
  { len := 131, c41 := ' ', body7 := "", d59 := 0, nTerms := none,
    fA := some 5, fB := some 0, fC := some 0 }

/-- Witness for C2: the block step on a concrete one-term block during a
construction-shaped call (derived scale and time powers as
`NewEllipticModel` passes them for precision 0.001 at the epoch). -/
theorem c2_witness :
    parseLoop '2' Mercury [hdrW, termW] (qOf (1 / 1000)) (1 / 1000)
        (at6Of t2000) false 2 0 0 (emptyCo ℝ) =
      parseLoop '2' Mercury [hdrW, termW] (qOf (1 / 1000)) (1 / 1000)
        (at6Of t2000) false 1 2 (at6Of t2000 ⟨0, by norm_num⟩)
        (Function.update (emptyCo ℝ) ⟨0, by norm_num⟩
          (keepTerms
            (truncThreshold (qOf (1 / 1000)) (1 / 1000) 0
              (at6Of t2000 ⟨0, by norm_num⟩) 0 false Mercury)
            [⟨5, 0, 0⟩])) :=
  c2_block_truncation (1 / 1000) t2000 '2' Mercury [hdrW, termW] false 1 0 0
    (emptyCo ℝ) hdrW 1 [⟨5, 0, 0⟩] rfl (by decide) rfl rfl rfl (by decide)
    (by decide) (by decide) (by decide) rfl

end Vsop87
